import Mathlib

/-!
Verification of the PanelReader layout-reconstruction engine.

The definitions below are a shallow embedding of the two source files:
  * `YOLO/ordered_detection.py` — `merge_boxes`, `merge_overlapping_boxes`,
    `xy_cut_sort`, the 1-based index assignment of `main`, and the
    shrink-wrap step of `main`;
  * `Magi/magi.py` — `boxes_overlap` and the pure geometric core of
    `get_inclusive_panels`.

Box coordinates are modelled as rationals (the Python code works on Python
floats coming from `tensor.tolist()`); Python's `ZeroDivisionError` is
modelled by an `Except Unit` result; Python's `int()` (truncation toward
zero) is modelled by `pyInt`.
-/

namespace PanelReader

/-- An axis-aligned box `[x1, y1, x2, y2]`, as used throughout
`ordered_detection.py` and `magi.py`. -/
structure Box where
  x1 : ℚ
  y1 : ℚ
  x2 : ℚ
  y2 : ℚ
deriving DecidableEq, Repr

/-- `merge_boxes` from `ordered_detection.py`: the enclosing box of the two
inputs (component-wise min of the lower corner, max of the upper corner). -/
def merge_boxes (box1 box2 : Box) : Box :=
  ⟨min box1.x1 box2.x1, min box1.y1 box2.y1, max box1.x2 box2.x2, max box1.y2 box2.y2⟩

/-- Propagate the result of scanning the tail past a skipped `box2`: the
skipped box stays at its position in front of whatever the rest of the scan
leaves behind. -/
def keepBox2 (box2 : Box) : Except Unit (Option (Box × List Box)) →
    Except Unit (Option (Box × List Box))
  | .error e => .error e
  | .ok none => .ok none
  | .ok (some (m, rest2)) => .ok (some (m, box2 :: rest2))

/-- Inner `while j < len(boxes)` loop of `merge_overlapping_boxes`, for a fixed
`box1 = boxes[i]`: scan the boxes after position `i` in order; at the first
`box2` that passes the same-row test, Python evaluates
`overlap_area / min(area1, area2)` — a zero divisor raises `ZeroDivisionError`
(modelled as `.error ()`); if the ratio exceeds the threshold the pair is
merged (`boxes[i] = merge_boxes(box1, box2); boxes.pop(j)`), giving back the
merged box and the scanned tail with `box2` removed. -/
def tryMergeWith (overlap_threshold : ℚ) (box1 : Box) :
    List Box → Except Unit (Option (Box × List Box))
  | [] => .ok none
  | box2 :: rest =>
    let y_overlap := min box1.y2 box2.y2 - max box1.y1 box2.y1
    let min_height := min (box1.y2 - box1.y1) (box2.y2 - box2.y1)
    if y_overlap > min_height * (1 / 2) then
      let x_overlap := max 0 (min box1.x2 box2.x2 - max box1.x1 box2.x1)
      let overlap_area := x_overlap * y_overlap
      let area1 := (box1.x2 - box1.x1) * (box1.y2 - box1.y1)
      let area2 := (box2.x2 - box2.x1) * (box2.y2 - box2.y1)
      if min area1 area2 = 0 then .error ()
      else if overlap_area / min area1 area2 > overlap_threshold then
        .ok (some (merge_boxes box1 box2, rest))
      else keepBox2 box2 (tryMergeWith overlap_threshold box1 rest)
    else keepBox2 box2 (tryMergeWith overlap_threshold box1 rest)

/-- One unfolding step of `tryMergeWith` on a non-empty list, with the `let`
bindings of the source expanded. -/
theorem tryMergeWith_cons (overlap_threshold : ℚ) (box1 box2 : Box) (rest : List Box) :
    tryMergeWith overlap_threshold box1 (box2 :: rest) =
      if min box1.y2 box2.y2 - max box1.y1 box2.y1 >
          min (box1.y2 - box1.y1) (box2.y2 - box2.y1) * (1 / 2) then
        if min ((box1.x2 - box1.x1) * (box1.y2 - box1.y1))
            ((box2.x2 - box2.x1) * (box2.y2 - box2.y1)) = 0 then .error ()
        else if max 0 (min box1.x2 box2.x2 - max box1.x1 box2.x1) *
            (min box1.y2 box2.y2 - max box1.y1 box2.y1) /
            min ((box1.x2 - box1.x1) * (box1.y2 - box1.y1))
              ((box2.x2 - box2.x1) * (box2.y2 - box2.y1)) > overlap_threshold then
          .ok (some (merge_boxes box1 box2, rest))
        else keepBox2 box2 (tryMergeWith overlap_threshold box1 rest)
      else keepBox2 box2 (tryMergeWith overlap_threshold box1 rest) := by
  rw [tryMergeWith]

theorem keepBox2_eq_ok_some {box2 : Box} {r : Except Unit (Option (Box × List Box))}
    {m : Box} {rest2 : List Box} :
    keepBox2 box2 r = .ok (some (m, rest2)) ↔
      ∃ rest3, r = .ok (some (m, rest3)) ∧ rest2 = box2 :: rest3 := by
  cases r with
  | error e => simp [keepBox2]
  | ok o =>
    cases o with
    | none => simp [keepBox2]
    | some p =>
      rcases p with ⟨m2, rest3⟩
      simp only [keepBox2, Except.ok.injEq, Option.some.injEq, Prod.mk.injEq]
      constructor
      · rintro ⟨h1, h2⟩; exact ⟨rest3, ⟨h1, rfl⟩, h2.symm⟩
      · rintro ⟨rest4, ⟨h1, h2⟩, h3⟩
        exact ⟨h1, by rw [h2, h3]⟩

/-- Outer `while i < len(boxes)` loop of `merge_overlapping_boxes`: find the
first pair `(i, j)`, `i < j`, in scan order that merges (or the first pair on
which the ratio division raises).  `.ok none` means a full pass found no
mergeable pair; `.ok (some boxes2)` is the collection after the first merge,
with the merged box at position `i`. -/
def findMergeAux (overlap_threshold : ℚ) : List Box → Except Unit (Option (List Box))
  | [] => .ok none
  | box1 :: rest =>
    match tryMergeWith overlap_threshold box1 rest with
    | .error e => .error e
    | .ok (some (m, rest2)) => .ok (some (m :: rest2))
    | .ok none =>
      match findMergeAux overlap_threshold rest with
      | .error e => .error e
      | .ok none => .ok none
      | .ok (some rest2) => .ok (some (box1 :: rest2))

theorem tryMergeWith_length {overlap_threshold : ℚ} {box1 : Box} :
    ∀ {l : List Box} {m : Box} {rest2 : List Box},
      tryMergeWith overlap_threshold box1 l = .ok (some (m, rest2)) →
      rest2.length + 1 = l.length := by
  intro l
  induction l with
  | nil => intro m rest2 h; simp [tryMergeWith] at h
  | cons box2 rest ih =>
    intro m rest2 h
    rw [tryMergeWith_cons] at h
    split at h
    · split at h
      · exact absurd h (by simp)
      · split at h
        · simp only [Except.ok.injEq, Option.some.injEq, Prod.mk.injEq] at h
          simp [← h.2]
        · rcases keepBox2_eq_ok_some.1 h with ⟨rest3, heq, hr⟩
          have := ih heq
          simp [hr, ← this]
    · rcases keepBox2_eq_ok_some.1 h with ⟨rest3, heq, hr⟩
      have := ih heq
      simp [hr, ← this]

theorem findMergeAux_length {overlap_threshold : ℚ} :
    ∀ {l l2 : List Box},
      findMergeAux overlap_threshold l = .ok (some l2) →
      l2.length + 1 = l.length := by
  intro l
  induction l with
  | nil => intro l2 h; simp [findMergeAux] at h
  | cons box1 rest ih =>
    intro l2 h
    rw [findMergeAux] at h
    revert h
    split
    · intro h; exact absurd h (by simp)
    · rename_i m rest2 heq
      intro h
      simp only [Except.ok.injEq, Option.some.injEq] at h
      have := tryMergeWith_length heq
      simp [← h, ← this]
    · split
      · intro h; exact absurd h (by simp)
      · intro h; exact absurd h (by simp)
      · rename_i heq0 rest2 heq
        intro h
        simp only [Except.ok.injEq, Option.some.injEq] at h
        have := ih heq
        simp [← h, ← this]

/-- The `while merged` loop of `merge_overlapping_boxes`: repeat single merges,
restarting the scan from the beginning after each merge, until a full pass
finds no mergeable pair (or the ratio division raises). -/
def mergeLoop (overlap_threshold : ℚ) (boxes : List Box) : Except Unit (List Box) :=
  match h : findMergeAux overlap_threshold boxes with
  | .error e => .error e
  | .ok none => .ok boxes
  | .ok (some boxes2) => mergeLoop overlap_threshold boxes2
termination_by boxes.length
decreasing_by
  have := findMergeAux_length h
  omega

/-- `merge_overlapping_boxes` from `ordered_detection.py`.  The source default
for `overlap_threshold` is `0.3`; collections of size at most one are returned
unchanged before the loop starts. -/
def merge_overlapping_boxes (boxes : List Box) (overlap_threshold : ℚ) :
    Except Unit (List Box) :=
  if boxes.length ≤ 1 then .ok boxes
  else mergeLoop overlap_threshold boxes

theorem mergeLoop_eq_error {overlap_threshold : ℚ} {boxes : List Box}
    (h : findMergeAux overlap_threshold boxes = .error ()) :
    mergeLoop overlap_threshold boxes = .error () := by
  rw [mergeLoop]
  split <;> rename_i heq
  · rfl
  · rw [h] at heq; exact absurd heq (by simp)
  · rw [h] at heq; exact absurd heq (by simp)

theorem mergeLoop_eq_none {overlap_threshold : ℚ} {boxes : List Box}
    (h : findMergeAux overlap_threshold boxes = .ok none) :
    mergeLoop overlap_threshold boxes = .ok boxes := by
  rw [mergeLoop]
  split <;> rename_i heq
  · rw [h] at heq; exact absurd heq (by simp)
  · rfl
  · rw [h] at heq; exact absurd heq (by simp)

theorem mergeLoop_eq_some {overlap_threshold : ℚ} {boxes boxes2 : List Box}
    (h : findMergeAux overlap_threshold boxes = .ok (some boxes2)) :
    mergeLoop overlap_threshold boxes = mergeLoop overlap_threshold boxes2 := by
  rw [mergeLoop]
  split <;> rename_i heq
  · rw [h] at heq; exact absurd heq (by simp)
  · rw [h] at heq; exact absurd heq (by simp)
  · rw [h] at heq
    simp only [Except.ok.injEq, Option.some.injEq] at heq
    rw [heq]

instance decEqExcept {ε α : Type} [DecidableEq ε] [DecidableEq α] :
    DecidableEq (Except ε α) := fun x y =>
  match x, y with
  | .error a, .error b =>
    if h : a = b then .isTrue (by rw [h]) else .isFalse (by simp [h])
  | .error _, .ok _ => .isFalse (by simp)
  | .ok _, .error _ => .isFalse (by simp)
  | .ok a, .ok b =>
    if h : a = b then .isTrue (by rw [h]) else .isFalse (by simp [h])

/-- A box with strictly positive width and height (hence strictly positive
area); the regime in which the ratio division of `merge_overlapping_boxes` is
always defined. -/
def posArea (b : Box) : Prop := b.x1 < b.x2 ∧ b.y1 < b.y2

instance decPosArea (b : Box) : Decidable (posArea b) :=
  inferInstanceAs (Decidable (b.x1 < b.x2 ∧ b.y1 < b.y2))

/-- `outer` fully contains `inner`. -/
def containsB (outer inner : Box) : Prop :=
  outer.x1 ≤ inner.x1 ∧ outer.y1 ≤ inner.y1 ∧ inner.x2 ≤ outer.x2 ∧ inner.y2 ≤ outer.y2

instance decContainsB (o b : Box) : Decidable (containsB o b) :=
  inferInstanceAs (Decidable (_ ∧ _ ∧ _ ∧ _))

theorem containsB_refl (b : Box) : containsB b b :=
  ⟨le_refl _, le_refl _, le_refl _, le_refl _⟩

theorem containsB_trans {o m b : Box} (h1 : containsB o m) (h2 : containsB m b) :
    containsB o b :=
  ⟨le_trans h1.1 h2.1, le_trans h1.2.1 h2.2.1,
   le_trans h2.2.2.1 h1.2.2.1, le_trans h2.2.2.2 h1.2.2.2⟩

theorem merge_boxes_contains_left (a b : Box) : containsB (merge_boxes a b) a :=
  ⟨min_le_left _ _, min_le_left _ _, le_max_left _ _, le_max_left _ _⟩

theorem merge_boxes_contains_right (a b : Box) : containsB (merge_boxes a b) b :=
  ⟨min_le_right _ _, min_le_right _ _, le_max_right _ _, le_max_right _ _⟩

theorem posArea_merge_boxes {a b : Box} (ha : posArea a) (hb : posArea b) :
    posArea (merge_boxes a b) :=
  ⟨lt_of_le_of_lt (min_le_left _ _) (lt_of_lt_of_le ha.1 (le_max_left _ _)),
   lt_of_le_of_lt (min_le_left _ _) (lt_of_lt_of_le ha.2 (le_max_left _ _))⟩

/-- On positive-area boxes the inner scan never hits the zero divisor, and on
a merge it produces a positive-area merged box at position `i` that contains
both merged boxes, dropping exactly one entry. -/
theorem tryMergeWith_pos {overlap_threshold : ℚ} {box1 : Box} :
    ∀ {l : List Box}, posArea box1 → (∀ b ∈ l, posArea b) →
      tryMergeWith overlap_threshold box1 l = .ok none ∨
      (∃ m rest2, tryMergeWith overlap_threshold box1 l = .ok (some (m, rest2)) ∧
        posArea m ∧ (∀ b ∈ rest2, posArea b) ∧ containsB m box1 ∧
        (∀ b ∈ l, b ∈ rest2 ∨ containsB m b)) := by
  intro l
  induction l with
  | nil => intro _ _; left; rfl
  | cons box2 rest ih =>
    intro h1 hl
    have hbox2 : posArea box2 := hl box2 (List.mem_cons_self _ _)
    have hrest : ∀ b ∈ rest, posArea b := fun b hb => hl b (List.mem_cons_of_mem _ hb)
    have harea : ¬ (min ((box1.x2 - box1.x1) * (box1.y2 - box1.y1))
        ((box2.x2 - box2.x1) * (box2.y2 - box2.y1)) = 0) := by
      have a1 : 0 < (box1.x2 - box1.x1) * (box1.y2 - box1.y1) :=
        mul_pos (by linarith [h1.1]) (by linarith [h1.2])
      have a2 : 0 < (box2.x2 - box2.x1) * (box2.y2 - box2.y1) :=
        mul_pos (by linarith [hbox2.1]) (by linarith [hbox2.2])
      exact ne_of_gt (lt_min a1 a2)
    rw [tryMergeWith_cons]
    by_cases hsame : min box1.y2 box2.y2 - max box1.y1 box2.y1 >
        min (box1.y2 - box1.y1) (box2.y2 - box2.y1) * (1 / 2)
    · rw [if_pos hsame, if_neg harea]
      by_cases hr : max 0 (min box1.x2 box2.x2 - max box1.x1 box2.x1) *
          (min box1.y2 box2.y2 - max box1.y1 box2.y1) /
          min ((box1.x2 - box1.x1) * (box1.y2 - box1.y1))
            ((box2.x2 - box2.x1) * (box2.y2 - box2.y1)) > overlap_threshold
      · rw [if_pos hr]
        right
        refine ⟨merge_boxes box1 box2, rest, rfl, posArea_merge_boxes h1 hbox2, hrest,
          merge_boxes_contains_left _ _, ?_⟩
        intro b hb
        rcases List.mem_cons.1 hb with hb | hb
        · right; rw [hb]; exact merge_boxes_contains_right _ _
        · left; exact hb
      · rw [if_neg hr]
        rcases ih h1 hrest with hnone | ⟨m, rest2, heq, hm, hrest2, hcont, hcover⟩
        · rw [hnone]; left; rfl
        · rw [heq]
          right
          refine ⟨m, box2 :: rest2, rfl, hm, ?_, hcont, ?_⟩
          · intro b hb
            rcases List.mem_cons.1 hb with hb | hb
            · rw [hb]; exact hbox2
            · exact hrest2 b hb
          · intro b hb
            rcases List.mem_cons.1 hb with hb | hb
            · left; rw [hb]; exact List.mem_cons_self _ _
            · rcases hcover b hb with hb2 | hb2
              · left; exact List.mem_cons_of_mem _ hb2
              · right; exact hb2
    · rw [if_neg hsame]
      rcases ih h1 hrest with hnone | ⟨m, rest2, heq, hm, hrest2, hcont, hcover⟩
      · rw [hnone]; left; rfl
      · rw [heq]
        right
        refine ⟨m, box2 :: rest2, rfl, hm, ?_, hcont, ?_⟩
        · intro b hb
          rcases List.mem_cons.1 hb with hb | hb
          · rw [hb]; exact hbox2
          · exact hrest2 b hb
        · intro b hb
          rcases List.mem_cons.1 hb with hb | hb
          · left; rw [hb]; exact List.mem_cons_self _ _
          · rcases hcover b hb with hb2 | hb2
            · left; exact List.mem_cons_of_mem _ hb2
            · right; exact hb2

/-- On positive-area boxes a full pass never raises; it either reports no
mergeable pair or performs the first merge, preserving positivity and keeping
every box of the collection inside some box of the result. -/
theorem findMergeAux_pos {overlap_threshold : ℚ} :
    ∀ {l : List Box}, (∀ b ∈ l, posArea b) →
      findMergeAux overlap_threshold l = .ok none ∨
      (∃ l2, findMergeAux overlap_threshold l = .ok (some l2) ∧
        (∀ b ∈ l2, posArea b) ∧ (∀ b ∈ l, ∃ o ∈ l2, containsB o b)) := by
  intro l
  induction l with
  | nil => intro _; left; rfl
  | cons box1 rest ih =>
    intro hl
    have h1 : posArea box1 := hl box1 (List.mem_cons_self _ _)
    have hrest : ∀ b ∈ rest, posArea b := fun b hb => hl b (List.mem_cons_of_mem _ hb)
    rw [findMergeAux]
    rcases tryMergeWith_pos h1 hrest with hnone | ⟨m, rest2, heq, hm, hrest2, hcont, hcover⟩
    · rw [hnone]
      rcases ih hrest with hfnone | ⟨l2, hfeq, hl2, hfcover⟩
      · rw [hfnone]; left; rfl
      · rw [hfeq]
        right
        refine ⟨box1 :: l2, rfl, ?_, ?_⟩
        · intro b hb
          rcases List.mem_cons.1 hb with hb | hb
          · rw [hb]; exact h1
          · exact hl2 b hb
        · intro b hb
          rcases List.mem_cons.1 hb with hb | hb
          · exact ⟨box1, List.mem_cons_self _ _, hb ▸ containsB_refl _⟩
          · rcases hfcover b hb with ⟨o, ho, hob⟩
            exact ⟨o, List.mem_cons_of_mem _ ho, hob⟩
    · rw [heq]
      right
      refine ⟨m :: rest2, rfl, ?_, ?_⟩
      · intro b hb
        rcases List.mem_cons.1 hb with hb | hb
        · rw [hb]; exact hm
        · exact hrest2 b hb
      · intro b hb
        rcases List.mem_cons.1 hb with hb | hb
        · exact ⟨m, List.mem_cons_self _ _, hb ▸ hcont⟩
        · rcases hcover b hb with hb2 | hb2
          · exact ⟨b, List.mem_cons_of_mem _ hb2, containsB_refl _⟩
          · exact ⟨m, List.mem_cons_self _ _, hb2⟩

/-- On positive-area boxes the merge loop always returns normally, its output
boxes all have positive area, and every input box lies inside some output
box. -/
theorem mergeLoop_pos {overlap_threshold : ℚ} :
    ∀ (n : ℕ) (l : List Box), l.length ≤ n → (∀ b ∈ l, posArea b) →
      ∃ out, mergeLoop overlap_threshold l = .ok out ∧ (∀ b ∈ out, posArea b) ∧
        (∀ b ∈ l, ∃ o ∈ out, containsB o b) := by
  intro n
  induction n with
  | zero =>
    intro l hlen hl
    have : l = [] := List.length_eq_zero.1 (Nat.le_zero.1 hlen)
    subst this
    refine ⟨[], mergeLoop_eq_none (by rfl), by simp, by simp⟩
  | succ n ih =>
    intro l hlen hl
    rcases @findMergeAux_pos overlap_threshold l hl with
      hnone | ⟨l2, heq, hl2, hcover⟩
    · exact ⟨l, mergeLoop_eq_none hnone, hl,
        fun b hb => ⟨b, hb, containsB_refl _⟩⟩
    · have hlen2 : l2.length ≤ n := by
        have := findMergeAux_length heq
        omega
      rcases ih l2 hlen2 hl2 with ⟨out, hout, hposout, hcover2⟩
      refine ⟨out, ?_, hposout, ?_⟩
      · rw [mergeLoop_eq_some heq]; exact hout
      · intro b hb
        rcases hcover b hb with ⟨o, ho, hob⟩
        rcases hcover2 o ho with ⟨o2, ho2, ho2o⟩
        exact ⟨o2, ho2, containsB_trans ho2o hob⟩

/-- When the merge loop returns normally, its result admits no further
mergeable pair: a full pass over the output finds nothing. -/
theorem mergeLoop_fix {overlap_threshold : ℚ} :
    ∀ (n : ℕ) (l out : List Box), l.length ≤ n →
      mergeLoop overlap_threshold l = .ok out →
      findMergeAux overlap_threshold out = .ok none := by
  intro n
  induction n with
  | zero =>
    intro l out hlen hml
    have : l = [] := List.length_eq_zero.1 (Nat.le_zero.1 hlen)
    subst this
    rw [mergeLoop_eq_none (by rfl)] at hml
    simp only [Except.ok.injEq] at hml
    rw [← hml]; rfl
  | succ n ih =>
    intro l out hlen hml
    cases hf : findMergeAux overlap_threshold l with
    | error e =>
      cases e
      rw [mergeLoop_eq_error hf] at hml
      exact absurd hml (by simp)
    | ok r =>
      cases r with
      | none =>
        rw [mergeLoop_eq_none hf] at hml
        simp only [Except.ok.injEq] at hml
        rw [← hml]; exact hf
      | some l2 =>
        rw [mergeLoop_eq_some hf] at hml
        have hlen2 : l2.length ≤ n := by
          have := findMergeAux_length hf
          omega
        exact ih l2 out hlen2 hml


/-! ### Reading-order sorter (`xy_cut_sort`) and index assignment -/

/-- Row clustering loop of `xy_cut_sort` (steps 1–2 of the source): `cur` is
the current cluster in reverse order, so its head is Python's
`current_cluster[-1]`, the most recently appended box.  A new row starts when
the next box's `y1` exceeds `0.95` times that box's `y2`. -/
def rowClustersAux : List Box → List Box → List (List Box)
  | cur, [] => [cur.reverse]
  | [], b :: rest => rowClustersAux [b] rest
  | last :: cs, b :: rest =>
    if b.y1 > last.y2 * (95 / 100) then
      (last :: cs).reverse :: rowClustersAux [b] rest
    else rowClustersAux (b :: last :: cs) rest

/-- The row clusters of `xy_cut_sort`: the first box seeds the first cluster
(`current_cluster = [boxes[0]]` in the source). -/
def rowClusters : List Box → List (List Box)
  | [] => []
  | b :: rest => rowClustersAux [b] rest

/-- Step 1 of `xy_cut_sort`: stable sort by `y1` (Python `list.sort` is
stable, as is `List.mergeSort`). -/
def sortByY1 (boxes : List Box) : List Box :=
  boxes.mergeSort (fun a b => decide (a.y1 ≤ b.y1))

/-- Step 3 of `xy_cut_sort`: stable sort of one row by `x1`, descending when
`rtl` is true (Python `sort(key=..., reverse=rtl)` keeps equal keys in their
original order, as a stable sort with the flipped comparison does). -/
def sortClusterByX1 (rtl : Bool) (cluster : List Box) : List Box :=
  cluster.mergeSort (fun a b => if rtl then decide (b.x1 ≤ a.x1) else decide (a.x1 ≤ b.x1))

/-- `xy_cut_sort` from `ordered_detection.py`: collections of size at most
one are returned unchanged; otherwise sort by `y1`, cluster into rows, sort
each row by `x1` (direction per `rtl`), and concatenate the rows. -/
def xy_cut_sort (boxes : List Box) (rtl : Bool) : List Box :=
  if boxes.length ≤ 1 then boxes
  else ((rowClusters (sortByY1 boxes)).map (sortClusterByX1 rtl)).flatten

/-- Index assignment of `main`: `for i, box in enumerate(final_output_boxes)`
paired with `index = i + 1`. -/
def assignIndices {α : Type} : ℕ → List α → List (ℕ × α)
  | _, [] => []
  | i, b :: rest => (i + 1, b) :: assignIndices (i + 1) rest

/-- The 1-based `{index, bbox}` records written by `main`, with the
enumeration starting at 0. -/
def readingOrderIndices {α : Type} (boxes : List α) : List (ℕ × α) :=
  assignIndices 0 boxes

/-- Relation of the within-row invariant: box `b`, examined right after box
`a` was appended to the current cluster, does not start a new row. -/
def sameRowStep (a b : Box) : Prop := ¬ (b.y1 > a.y2 * (95 / 100))

/-- Relation between consecutive clusters: the first box of the later cluster
starts a new row relative to the last box of the earlier cluster. -/
def rowBreak (c1 c2 : List Box) : Prop :=
  ∀ a, c1.getLast? = some a → ∀ b, c2.head? = some b → b.y1 > a.y2 * (95 / 100)

theorem rowClustersAux_flatten :
    ∀ (rest cur : List Box), (rowClustersAux cur rest).flatten = cur.reverse ++ rest := by
  intro rest
  induction rest with
  | nil => intro cur; simp [rowClustersAux]
  | cons b rest ih =>
    intro cur
    cases cur with
    | nil => rw [rowClustersAux, ih]; simp
    | cons last cs =>
      rw [rowClustersAux]
      split
      · rw [List.flatten_cons, ih]
        simp
      · rw [ih]
        simp

theorem rowClusters_flatten (l : List Box) : (rowClusters l).flatten = l := by
  cases l with
  | nil => simp [rowClusters]
  | cons b rest => rw [rowClusters, rowClustersAux_flatten]; simp

theorem flatten_map_perm (ls : List (List Box)) (f : List Box → List Box)
    (hf : ∀ c, (f c).Perm c) : ((ls.map f).flatten).Perm ls.flatten := by
  induction ls with
  | nil => simp
  | cons c cs ih =>
    simp only [List.map_cons, List.flatten_cons]
    exact (hf c).append ih

theorem assignIndices_map_fst {α : Type} :
    ∀ (l : List α) (i : ℕ),
      (assignIndices i l).map Prod.fst = List.range' (i + 1) l.length := by
  intro l
  induction l with
  | nil => intro i; simp [assignIndices]
  | cons b rest ih =>
    intro i
    rw [assignIndices]
    simp only [List.map_cons, List.length_cons]
    rw [ih, List.range'_succ]

theorem readingOrderIndices_map_fst {α : Type} (l : List α) :
    (readingOrderIndices l).map Prod.fst = List.range' 1 l.length := by
  rw [readingOrderIndices, assignIndices_map_fst]

/-- Invariant of the clustering loop: starting from a non-empty current
cluster whose reversal satisfies the within-row chain, every produced cluster
is non-empty and chained, consecutive clusters are separated by a row break,
and the first produced cluster extends the reversed current one. -/
theorem rowClustersAux_chain :
    ∀ (rest cur : List Box), cur ≠ [] → List.Chain' sameRowStep cur.reverse →
      (∀ c ∈ rowClustersAux cur rest, c ≠ [] ∧ List.Chain' sameRowStep c) ∧
      List.Chain' rowBreak (rowClustersAux cur rest) ∧
      (∃ t cs2, rowClustersAux cur rest = (cur.reverse ++ t) :: cs2) := by
  intro rest
  induction rest with
  | nil =>
    intro cur hne hchain
    refine ⟨?_, ?_, [], [], by simp [rowClustersAux]⟩
    · intro c hc
      rw [rowClustersAux, List.mem_singleton] at hc
      subst hc
      exact ⟨by simpa using hne, hchain⟩
    · rw [rowClustersAux]
      exact List.chain'_singleton _
  | cons b rest ih =>
    intro cur hne hchain
    cases cur with
    | nil => exact absurd rfl hne
    | cons last cs =>
      rw [rowClustersAux]
      split
      case isTrue hbr =>
        rcases ih [b] (by simp) (List.chain'_singleton _) with ⟨hmem, hchains, t, cs2, heq⟩
        simp only [List.reverse_cons, List.reverse_nil, List.nil_append,
          List.singleton_append] at heq
        refine ⟨?_, ?_, [], rowClustersAux [b] rest, by simp⟩
        · intro c hc
          rcases List.mem_cons.1 hc with hc | hc
          · subst hc; exact ⟨by simp, hchain⟩
          · exact hmem c hc
        · rw [List.chain'_cons']
          refine ⟨?_, hchains⟩
          rw [heq]
          intro y hy
          simp only [List.head?_cons, Option.mem_def, Option.some.injEq] at hy
          subst hy
          intro a ha b2 hb2
          rw [List.getLast?_reverse] at ha
          simp only [List.head?_cons, Option.some.injEq] at ha hb2
          subst ha
          subst hb2
          exact hbr
      case isFalse hbr =>
        have hchain2 : List.Chain' sameRowStep ((last :: cs).reverse ++ [b]) := by
          rw [List.chain'_append]
          refine ⟨hchain, List.chain'_singleton _, ?_⟩
          intro x hx y hy
          rw [List.getLast?_reverse] at hx
          simp only [List.head?_cons, Option.mem_def, Option.some.injEq] at hx hy
          subst hx
          subst hy
          exact hbr
        rcases ih (b :: last :: cs) (by simp) (by simpa using hchain2) with
          ⟨hmem, hchains, t, cs2, heq⟩
        refine ⟨hmem, hchains, b :: t, cs2, ?_⟩
        rw [heq]
        simp


/-! ### Inclusion expander (`magi.py`) -/

/-- Output box of `get_inclusive_panels`: integer coordinates after Python's
`int()` casts. -/
structure IBox where
  x1 : ℤ
  y1 : ℤ
  x2 : ℤ
  y2 : ℤ
deriving DecidableEq, Repr

/-- `boxes_overlap` from `magi.py`: true unless the boxes are separated by
more than `threshold` pixels along either axis. -/
def boxes_overlap (box1 box2 : Box) (threshold : ℚ) : Bool :=
  !(decide (box1.x2 < box2.x1 - threshold) || decide (box1.x1 > box2.x2 + threshold) ||
    decide (box1.y2 < box2.y1 - threshold) || decide (box1.y1 > box2.y2 + threshold))

/-- Python's `int()` on a rational: truncation toward zero. -/
def pyInt (q : ℚ) : ℤ := if q < 0 then -((-q).floor) else q.floor

/-- The `for t_idx, text_box in enumerate(texts)` loop of
`get_inclusive_panels`: starting from the panel's own coordinates, expand the
accumulator by every text box whose index is in `assocIdx` or which spatially
overlaps the original panel box with threshold 5. -/
def expandAux (assocIdx : List ℕ) (panel : Box) : ℕ → List Box → Box → Box
  | _, [], acc => acc
  | t, tb :: rest, acc =>
    if t ∈ assocIdx ∨ boxes_overlap panel tb 5 then
      expandAux assocIdx panel (t + 1) rest
        ⟨min acc.x1 tb.x1, min acc.y1 tb.y1, max acc.x2 tb.x2, max acc.y2 tb.y2⟩
    else expandAux assocIdx panel (t + 1) rest acc

/-- Body of the `for p_idx, panel_box in enumerate(panels)` loop: collect the
content indices associated to this panel index, expand, and cast the four
coordinates with `int()`. -/
def panelOut (texts : List Box) (assocs : List (ℕ × ℕ)) (p_idx : ℕ) (panel : Box) : IBox :=
  let assocIdx := (assocs.filter (fun a => a.1 == p_idx)).map (fun a => a.2)
  let e := expandAux assocIdx panel 0 texts panel
  ⟨pyInt e.x1, pyInt e.y1, pyInt e.x2, pyInt e.y2⟩

/-- Enumerated traversal of the panels. -/
def inclusiveAux (texts : List Box) (assocs : List (ℕ × ℕ)) : ℕ → List Box → List IBox
  | _, [] => []
  | p, panel :: rest =>
    panelOut texts assocs p panel :: inclusiveAux texts assocs (p + 1) rest

/-- Pure geometric core of `get_inclusive_panels` from `magi.py`, taking the
detection model's outputs (`panels`, `texts`, `associations`) as inputs. -/
def get_inclusive_panels (panels texts : List Box) (assocs : List (ℕ × ℕ)) : List IBox :=
  inclusiveAux texts assocs 0 panels

theorem pyInt_le {q : ℚ} (h : 0 ≤ q) : ((pyInt q : ℤ) : ℚ) ≤ q := by
  rw [pyInt, if_neg (not_lt.2 h)]
  exact Rat.le_floor.1 (le_refl _)

theorem lt_pyInt_add_one {q : ℚ} (h : 0 ≤ q) : q < ((pyInt q : ℤ) : ℚ) + 1 := by
  rw [pyInt, if_neg (not_lt.2 h)]
  by_contra hc
  push_neg at hc
  have h2 : ((q.floor + 1 : ℤ) : ℚ) ≤ q := by push_cast; linarith
  have h3 : q.floor + 1 ≤ q.floor := Rat.le_floor.2 h2
  omega

theorem expandAux_mono (assocIdx : List ℕ) (panel : Box) :
    ∀ (l : List Box) (t : ℕ) (acc : Box),
      (expandAux assocIdx panel t l acc).x1 ≤ acc.x1 ∧
      (expandAux assocIdx panel t l acc).y1 ≤ acc.y1 ∧
      acc.x2 ≤ (expandAux assocIdx panel t l acc).x2 ∧
      acc.y2 ≤ (expandAux assocIdx panel t l acc).y2 := by
  intro l
  induction l with
  | nil => intro t acc; rw [expandAux]; exact ⟨le_refl _, le_refl _, le_refl _, le_refl _⟩
  | cons tb rest ih =>
    intro t acc
    rw [expandAux]
    split
    · rcases ih (t + 1)
        ⟨min acc.x1 tb.x1, min acc.y1 tb.y1, max acc.x2 tb.x2, max acc.y2 tb.y2⟩ with
        ⟨h1, h2, h3, h4⟩
      exact ⟨le_trans h1 (min_le_left _ _), le_trans h2 (min_le_left _ _),
        le_trans (le_max_left _ _) h3, le_trans (le_max_left _ _) h4⟩
    · exact ih (t + 1) acc

theorem expandAux_covers (assocIdx : List ℕ) (panel : Box) :
    ∀ (l : List Box) (t : ℕ) (acc : Box) (n : ℕ) (tb : Box),
      l[n]? = some tb →
      (t + n ∈ assocIdx ∨ boxes_overlap panel tb 5) →
      containsB (expandAux assocIdx panel t l acc) tb := by
  intro l
  induction l with
  | nil => intro t acc n tb h; simp at h
  | cons hd rest ih =>
    intro t acc n tb hget hcond
    cases n with
    | zero =>
      simp only [List.getElem?_cons_zero, Option.some.injEq] at hget
      subst hget
      rw [Nat.add_zero] at hcond
      rw [expandAux, if_pos hcond]
      rcases expandAux_mono assocIdx panel rest (t + 1)
          ⟨min acc.x1 hd.x1, min acc.y1 hd.y1, max acc.x2 hd.x2, max acc.y2 hd.y2⟩ with
        ⟨h1, h2, h3, h4⟩
      exact ⟨le_trans h1 (min_le_right _ _), le_trans h2 (min_le_right _ _),
        le_trans (le_max_right _ _) h3, le_trans (le_max_right _ _) h4⟩
    | succ n =>
      simp only [List.getElem?_cons_succ] at hget
      have hcond2 : t + 1 + n ∈ assocIdx ∨ boxes_overlap panel tb 5 := by
        have he : t + 1 + n = t + (n + 1) := by omega
        rw [he]
        exact hcond
      rw [expandAux]
      split
      · exact ih (t + 1) _ n tb hget hcond2
      · exact ih (t + 1) acc n tb hget hcond2

theorem expandAux_nonneg (assocIdx : List ℕ) (panel : Box) :
    ∀ (l : List Box) (t : ℕ) (acc : Box),
      0 ≤ acc.x1 → 0 ≤ acc.y1 → (∀ b ∈ l, 0 ≤ b.x1 ∧ 0 ≤ b.y1) →
      0 ≤ (expandAux assocIdx panel t l acc).x1 ∧
      0 ≤ (expandAux assocIdx panel t l acc).y1 := by
  intro l
  induction l with
  | nil => intro t acc h1 h2 _; rw [expandAux]; exact ⟨h1, h2⟩
  | cons hd rest ih =>
    intro t acc h1 h2 hl
    have hhd := hl hd (List.mem_cons_self _ _)
    have hrest : ∀ b ∈ rest, 0 ≤ b.x1 ∧ 0 ≤ b.y1 :=
      fun b hb => hl b (List.mem_cons_of_mem _ hb)
    rw [expandAux]
    split
    · exact ih (t + 1) _ (le_min h1 hhd.1) (le_min h2 hhd.2) hrest
    · exact ih (t + 1) acc h1 h2 hrest

theorem inclusiveAux_getElem (texts : List Box) (assocs : List (ℕ × ℕ)) :
    ∀ (ps : List Box) (p i : ℕ),
      (inclusiveAux texts assocs p ps)[i]? =
        (ps[i]?).map (panelOut texts assocs (p + i)) := by
  intro ps
  induction ps with
  | nil => intro p i; simp [inclusiveAux]
  | cons panel rest ih =>
    intro p i
    cases i with
    | zero => simp [inclusiveAux]
    | succ i =>
      rw [inclusiveAux]
      simp only [List.getElem?_cons_succ]
      rw [ih (p + 1) i]
      have he : p + 1 + i = p + (i + 1) := by omega
      rw [he]

theorem expandAux_congr (panel : Box) (A1 A2 : List ℕ) :
    ∀ (l : List Box) (t : ℕ) (acc : Box),
      (∀ k, t ≤ k → k < t + l.length → (k ∈ A1 ↔ k ∈ A2)) →
      expandAux A1 panel t l acc = expandAux A2 panel t l acc := by
  intro l
  induction l with
  | nil => intro t acc _; rw [expandAux, expandAux]
  | cons hd rest ih =>
    intro t acc hk
    have hiff : (t ∈ A1 ∨ boxes_overlap panel hd 5) ↔
        (t ∈ A2 ∨ boxes_overlap panel hd 5) := by
      have := hk t (le_refl _) (by rw [List.length_cons]; omega)
      constructor
      · rintro (h | h)
        · exact Or.inl (this.1 h)
        · exact Or.inr h
      · rintro (h | h)
        · exact Or.inl (this.2 h)
        · exact Or.inr h
    have hk2 : ∀ k, t + 1 ≤ k → k < t + 1 + rest.length → (k ∈ A1 ↔ k ∈ A2) := by
      intro k hk1 hk2
      exact hk k (by omega) (by rw [List.length_cons]; omega)
    rw [expandAux, expandAux]
    by_cases hc : t ∈ A1 ∨ boxes_overlap panel hd 5
    · rw [if_pos hc, if_pos (hiff.1 hc)]
      exact ih (t + 1) _ hk2
    · rw [if_neg hc, if_neg (fun h2 => hc (hiff.2 h2))]
      exact ih (t + 1) acc hk2

/-- Unfolded form of `panelOut`. -/
theorem panelOut_eq (texts : List Box) (assocs : List (ℕ × ℕ)) (p : ℕ) (panel : Box) :
    panelOut texts assocs p panel =
      ⟨pyInt (expandAux ((assocs.filter (fun a => a.1 == p)).map (fun a => a.2))
          panel 0 texts panel).x1,
       pyInt (expandAux ((assocs.filter (fun a => a.1 == p)).map (fun a => a.2))
          panel 0 texts panel).y1,
       pyInt (expandAux ((assocs.filter (fun a => a.1 == p)).map (fun a => a.2))
          panel 0 texts panel).x2,
       pyInt (expandAux ((assocs.filter (fun a => a.1 == p)).map (fun a => a.2))
          panel 0 texts panel).y2⟩ := rfl

/-- Dropping the associations whose panel index or content index is out of
range changes neither the associated index list seen by any in-range panel
nor, hence, its expansion. -/
theorem panelOut_filter (texts : List Box) (assocs : List (ℕ × ℕ)) (N p : ℕ)
    (panel : Box) (hp : p < N) :
    panelOut texts assocs p panel =
      panelOut texts
        (assocs.filter (fun a => decide (a.1 < N) && decide (a.2 < texts.length)))
        p panel := by
  rw [panelOut_eq, panelOut_eq]
  have hA : expandAux ((assocs.filter (fun a => a.1 == p)).map (fun a => a.2))
        panel 0 texts panel =
      expandAux
        (((assocs.filter (fun a => decide (a.1 < N) && decide (a.2 < texts.length))).filter
          (fun a => a.1 == p)).map (fun a => a.2)) panel 0 texts panel := by
    apply expandAux_congr
    intro k hk0 hkl
    rw [Nat.zero_add] at hkl
    simp only [List.mem_map, List.mem_filter, beq_iff_eq, Bool.and_eq_true,
      decide_eq_true_eq]
    constructor
    · rintro ⟨a, ⟨ha, hap⟩, hak⟩
      exact ⟨a, ⟨⟨ha, by omega, by omega⟩, hap⟩, hak⟩
    · rintro ⟨a, ⟨⟨ha, h1, h2⟩, hap⟩, hak⟩
      exact ⟨a, ⟨ha, hap⟩, hak⟩
  rw [hA]

theorem inclusiveAux_filter_assocs (texts : List Box) (assocs : List (ℕ × ℕ)) (N : ℕ) :
    ∀ (ps : List Box) (p : ℕ), p + ps.length ≤ N →
      inclusiveAux texts assocs p ps =
        inclusiveAux texts
          (assocs.filter (fun a => decide (a.1 < N) && decide (a.2 < texts.length))) p ps := by
  intro ps
  induction ps with
  | nil => intro p _; rw [inclusiveAux, inclusiveAux]
  | cons panel rest ih =>
    intro p hp
    have hp2 : p < N := by rw [List.length_cons] at hp; omega
    rw [inclusiveAux, inclusiveAux, panelOut_filter texts assocs N p panel hp2,
      ih (p + 1) (by rw [List.length_cons] at hp; omega)]

/-! ### Content shrink-wrapper (the shrink-wrap step of `main`) -/

/-- A box with natural-number pixel coordinates, as produced by
`[int(c) for c in box]` in the shrink-wrap step of `main` for an
integer-coordinate box inside the image. -/
structure NBox where
  x1 : ℕ
  y1 : ℕ
  x2 : ℕ
  y2 : ℕ
deriving DecidableEq, Repr

/-- Coordinates, relative to the crop, of the ink pixels of the crop
`gray[y1:y2, x1:x2]`: the pixels of intensity at most 245
(`cv2.threshold(…, 245, 255, THRESH_BINARY_INV)` marks exactly those and
`cv2.findNonZero` lists them). -/
def inkCoords (img : ℕ → ℕ → ℕ) (b : NBox) : List (ℕ × ℕ) :=
  (List.range (b.y2 - b.y1)).flatMap fun iy =>
    (List.range (b.x2 - b.x1)).filterMap fun ix =>
      if img (b.y1 + iy) (b.x1 + ix) ≤ 245 then some (ix, iy) else none

/-- Minimum of a list of naturals with seed `n`. -/
def listMin (n : ℕ) (l : List ℕ) : ℕ := l.foldl min n

/-- Maximum of a list of naturals with seed `n`. -/
def listMax (n : ℕ) (l : List ℕ) : ℕ := l.foldl max n

/-- The shrink-wrap step of `main`: when the crop holds at least one ink
pixel, `cv2.boundingRect` of the ink coordinates gives `(ix, iy, iw, ih)`
with `ix, iy` the minima and `iw = max − min + 1` (same for `ih`), and the
output is `[x1+ix, y1+iy, x1+ix+iw, y1+iy+ih]`; otherwise the box is kept
unchanged. -/
def shrink_wrap (img : ℕ → ℕ → ℕ) (b : NBox) : NBox :=
  match inkCoords img b with
  | [] => b
  | p :: ps =>
    ⟨b.x1 + listMin p.1 (ps.map Prod.fst),
     b.y1 + listMin p.2 (ps.map Prod.snd),
     b.x1 + listMax p.1 (ps.map Prod.fst) + 1,
     b.y1 + listMax p.2 (ps.map Prod.snd) + 1⟩

/-- An absolute pixel position inside box `b` holding ink (intensity at most
245). -/
def inkAt (img : ℕ → ℕ → ℕ) (b : NBox) (px py : ℕ) : Prop :=
  b.x1 ≤ px ∧ px < b.x2 ∧ b.y1 ≤ py ∧ py < b.y2 ∧ img py px ≤ 245

theorem shrink_wrap_of_nil {img : ℕ → ℕ → ℕ} {b : NBox}
    (h : inkCoords img b = []) : shrink_wrap img b = b := by
  rw [shrink_wrap, h]

theorem shrink_wrap_of_cons {img : ℕ → ℕ → ℕ} {b : NBox} {p : ℕ × ℕ} {ps : List (ℕ × ℕ)}
    (h : inkCoords img b = p :: ps) :
    shrink_wrap img b =
      ⟨b.x1 + listMin p.1 (ps.map Prod.fst),
       b.y1 + listMin p.2 (ps.map Prod.snd),
       b.x1 + listMax p.1 (ps.map Prod.fst) + 1,
       b.y1 + listMax p.2 (ps.map Prod.snd) + 1⟩ := by
  rw [shrink_wrap, h]

theorem mem_inkCoords {img : ℕ → ℕ → ℕ} {b : NBox} {ix iy : ℕ} :
    (ix, iy) ∈ inkCoords img b ↔
      ix < b.x2 - b.x1 ∧ iy < b.y2 - b.y1 ∧ img (b.y1 + iy) (b.x1 + ix) ≤ 245 := by
  simp only [inkCoords, List.mem_flatMap, List.mem_filterMap, List.mem_range,
    Option.ite_none_right_eq_some, Option.some.injEq, Prod.mk.injEq]
  constructor
  · rintro ⟨iy2, hiy2, ix2, hix2, hink, hix, hiy⟩
    subst hix
    subst hiy
    exact ⟨hix2, hiy2, hink⟩
  · rintro ⟨h1, h2, h3⟩
    exact ⟨iy, h2, ix, h1, h3, rfl, rfl⟩

theorem inkAt_iff_mem {img : ℕ → ℕ → ℕ} {b : NBox} {px py : ℕ} :
    inkAt img b px py ↔
      ∃ ix iy, (ix, iy) ∈ inkCoords img b ∧ px = b.x1 + ix ∧ py = b.y1 + iy := by
  constructor
  · rintro ⟨h1, h2, h3, h4, h5⟩
    refine ⟨px - b.x1, py - b.y1, mem_inkCoords.2 ⟨by omega, by omega, ?_⟩, by omega, by omega⟩
    have e1 : b.x1 + (px - b.x1) = px := by omega
    have e2 : b.y1 + (py - b.y1) = py := by omega
    rw [e1, e2]
    exact h5
  · rintro ⟨ix, iy, hmem, hpx, hpy⟩
    rcases mem_inkCoords.1 hmem with ⟨h1, h2, h3⟩
    subst hpx
    subst hpy
    exact ⟨by omega, by omega, by omega, by omega, h3⟩

theorem listMin_le : ∀ (l : List ℕ) (n : ℕ),
    listMin n l ≤ n ∧ ∀ m ∈ l, listMin n l ≤ m := by
  intro l
  induction l with
  | nil => intro n; exact ⟨le_refl _, by simp⟩
  | cons a l ih =>
    intro n
    rcases ih (min n a) with ⟨h1, h2⟩
    have hstep : listMin n (a :: l) = listMin (min n a) l := by
      rw [listMin, listMin, List.foldl_cons]
    refine ⟨by rw [hstep]; exact le_trans h1 (min_le_left _ _), ?_⟩
    intro m hm
    rcases List.mem_cons.1 hm with hm | hm
    · rw [hstep, hm]
      exact le_trans h1 (min_le_right _ _)
    · rw [hstep]
      exact h2 m hm

theorem le_listMax : ∀ (l : List ℕ) (n : ℕ),
    n ≤ listMax n l ∧ ∀ m ∈ l, m ≤ listMax n l := by
  intro l
  induction l with
  | nil => intro n; exact ⟨le_refl _, by simp⟩
  | cons a l ih =>
    intro n
    rcases ih (max n a) with ⟨h1, h2⟩
    have hstep : listMax n (a :: l) = listMax (max n a) l := by
      rw [listMax, listMax, List.foldl_cons]
    refine ⟨by rw [hstep]; exact le_trans (le_max_left _ _) h1, ?_⟩
    intro m hm
    rcases List.mem_cons.1 hm with hm | hm
    · rw [hstep, hm]
      exact le_trans (le_max_right _ _) h1
    · rw [hstep]
      exact h2 m hm

theorem listMin_mem : ∀ (l : List ℕ) (n : ℕ), listMin n l = n ∨ listMin n l ∈ l := by
  intro l
  induction l with
  | nil => intro n; left; rfl
  | cons a l ih =>
    intro n
    have hstep : listMin n (a :: l) = listMin (min n a) l := by
      rw [listMin, listMin, List.foldl_cons]
    rcases ih (min n a) with h | h
    · rcases min_choice n a with hc | hc
      · left; rw [hstep, h, hc]
      · right; rw [hstep, h, hc]; exact List.mem_cons_self _ _
    · right; rw [hstep]; exact List.mem_cons_of_mem _ h

theorem listMax_mem : ∀ (l : List ℕ) (n : ℕ), listMax n l = n ∨ listMax n l ∈ l := by
  intro l
  induction l with
  | nil => intro n; left; rfl
  | cons a l ih =>
    intro n
    have hstep : listMax n (a :: l) = listMax (max n a) l := by
      rw [listMax, listMax, List.foldl_cons]
    rcases ih (max n a) with h | h
    · rcases max_choice n a with hc | hc
      · left; rw [hstep, h, hc]
      · right; rw [hstep, h, hc]; exact List.mem_cons_self _ _
    · right; rw [hstep]; exact List.mem_cons_of_mem _ h

/-- In the non-empty case, some listed ink coordinate attains the head-seeded
minimum of the first components, and likewise for the other three extrema. -/
theorem exists_attains_fst_min (p : ℕ × ℕ) (ps : List (ℕ × ℕ)) :
    ∃ q ∈ p :: ps, q.1 = listMin p.1 (ps.map Prod.fst) := by
  rcases listMin_mem (ps.map Prod.fst) p.1 with h | h
  · exact ⟨p, List.mem_cons_self _ _, h.symm⟩
  · rcases List.mem_map.1 h with ⟨q, hq, hq1⟩
    exact ⟨q, List.mem_cons_of_mem _ hq, hq1⟩

theorem exists_attains_fst_max (p : ℕ × ℕ) (ps : List (ℕ × ℕ)) :
    ∃ q ∈ p :: ps, q.1 = listMax p.1 (ps.map Prod.fst) := by
  rcases listMax_mem (ps.map Prod.fst) p.1 with h | h
  · exact ⟨p, List.mem_cons_self _ _, h.symm⟩
  · rcases List.mem_map.1 h with ⟨q, hq, hq1⟩
    exact ⟨q, List.mem_cons_of_mem _ hq, hq1⟩

theorem exists_attains_snd_min (p : ℕ × ℕ) (ps : List (ℕ × ℕ)) :
    ∃ q ∈ p :: ps, q.2 = listMin p.2 (ps.map Prod.snd) := by
  rcases listMin_mem (ps.map Prod.snd) p.2 with h | h
  · exact ⟨p, List.mem_cons_self _ _, h.symm⟩
  · rcases List.mem_map.1 h with ⟨q, hq, hq1⟩
    exact ⟨q, List.mem_cons_of_mem _ hq, hq1⟩

theorem exists_attains_snd_max (p : ℕ × ℕ) (ps : List (ℕ × ℕ)) :
    ∃ q ∈ p :: ps, q.2 = listMax p.2 (ps.map Prod.snd) := by
  rcases listMax_mem (ps.map Prod.snd) p.2 with h | h
  · exact ⟨p, List.mem_cons_self _ _, h.symm⟩
  · rcases List.mem_map.1 h with ⟨q, hq, hq1⟩
    exact ⟨q, List.mem_cons_of_mem _ hq, hq1⟩

/-- A member of the ink coordinate list, translated by the crop offset, is an
ink position of the box. -/
theorem inkAt_of_mem {img : ℕ → ℕ → ℕ} {b : NBox} {q : ℕ × ℕ}
    (h : q ∈ inkCoords img b) : inkAt img b (b.x1 + q.1) (b.y1 + q.2) := by
  rcases q with ⟨ix, iy⟩
  exact inkAt_iff_mem.2 ⟨ix, iy, h, rfl, rfl⟩

/-! ### Claim theorems -/

section Claims

attribute [local semireducible] Rat.mul Rat.add Rat.sub Rat.inv

/-- Claim C1 (counterexample): with the two boxes `[0,0,10,10]` and
`[5,5,15,15]` and `overlap_threshold = 0.3`, `merge_overlapping_boxes` does
not return the single merged box `[0,0,15,15]`: the claim is false on the
code. -/
theorem scenarioA_merge_refuted :
    merge_overlapping_boxes [⟨0, 0, 10, 10⟩, ⟨5, 5, 15, 15⟩] (3 / 10) ≠
      .ok [⟨0, 0, 15, 15⟩] := by
  rw [merge_overlapping_boxes, if_neg (by decide), mergeLoop_eq_none (by decide)]
  decide

/-- Claim C1 (amended): the pair `[0,0,10,10]`, `[5,5,15,15]` fails the strict
same-row test — the vertical overlap `min(10,15) − max(0,5) = 5` is not
strictly greater than `0.5 × min_height = 5` — so with
`overlap_threshold = 0.3` the two boxes are returned unchanged, unmerged. -/
theorem scenarioA_no_merge :
    merge_overlapping_boxes [⟨0, 0, 10, 10⟩, ⟨5, 5, 15, 15⟩] (3 / 10) =
      .ok [⟨0, 0, 10, 10⟩, ⟨5, 5, 15, 15⟩] ∧
    ¬ (min (10 : ℚ) 15 - max 0 5 > min (10 - 0) (15 - 5) * (1 / 2)) := by
  constructor
  · rw [merge_overlapping_boxes, if_neg (by decide), mergeLoop_eq_none (by decide)]
  · decide

/-- Claim C3 (code bug): a zero-width but positive-height box passes the
same-row test against an overlapping box, so the ratio division is evaluated
with `min(area1, area2) = 0` and the code raises `ZeroDivisionError` — here
on the valid degenerate input `[[5,0,5,10], [0,0,10,10]]`. -/
theorem zero_width_box_division_error :
    merge_overlapping_boxes [⟨5, 0, 5, 10⟩, ⟨0, 0, 10, 10⟩] (3 / 10) = .error () := by
  rw [merge_overlapping_boxes, if_neg (by decide), mergeLoop_eq_error (by decide)]

/-- Claim C6: on boxes of positive area `merge_overlapping_boxes` succeeds,
and applying it again to its own output with the same threshold returns that
output unchanged (the result is a fixpoint). -/
theorem merge_overlapping_boxes_idempotent (boxes : List Box) (overlap_threshold : ℚ)
    (h : ∀ b ∈ boxes, posArea b) :
    ∃ out, merge_overlapping_boxes boxes overlap_threshold = .ok out ∧
      merge_overlapping_boxes out overlap_threshold = .ok out := by
  by_cases hlen : boxes.length ≤ 1
  · exact ⟨boxes, by rw [merge_overlapping_boxes, if_pos hlen],
      by rw [merge_overlapping_boxes, if_pos hlen]⟩
  · rcases mergeLoop_pos boxes.length boxes (le_refl _) h with ⟨out, hout, hpos, hcov⟩
    refine ⟨out, by rw [merge_overlapping_boxes, if_neg hlen]; exact hout, ?_⟩
    have hfix := mergeLoop_fix boxes.length boxes out (le_refl _) hout
    by_cases hlen2 : out.length ≤ 1
    · rw [merge_overlapping_boxes, if_pos hlen2]
    · rw [merge_overlapping_boxes, if_neg hlen2]
      exact mergeLoop_eq_none hfix

/-- Witness for C6 at a concrete mergeable pair. -/
theorem merge_overlapping_boxes_idempotent_witness :
    (∀ b ∈ [Box.mk 0 0 2 2, Box.mk 1 0 3 2], posArea b) ∧
    ∃ out, merge_overlapping_boxes [Box.mk 0 0 2 2, Box.mk 1 0 3 2] (3 / 10) = .ok out ∧
      merge_overlapping_boxes out (3 / 10) = .ok out :=
  ⟨by decide, merge_overlapping_boxes_idempotent _ _ (by decide)⟩

/-- Claim C9: on boxes of positive area the merge loop terminates with a
normal result; a single successful merge step shortens the collection by
exactly one; and when a full pass finds no mergeable pair the function
returns its input unchanged. -/
theorem merge_overlapping_boxes_terminates (boxes : List Box) (overlap_threshold : ℚ)
    (h : ∀ b ∈ boxes, posArea b) :
    (∃ out, merge_overlapping_boxes boxes overlap_threshold = .ok out) ∧
    (∀ boxes2, findMergeAux overlap_threshold boxes = .ok (some boxes2) →
      boxes2.length + 1 = boxes.length) ∧
    (findMergeAux overlap_threshold boxes = .ok none →
      merge_overlapping_boxes boxes overlap_threshold = .ok boxes) := by
  refine ⟨?_, fun boxes2 h2 => findMergeAux_length h2, fun hfm => ?_⟩
  · by_cases hlen : boxes.length ≤ 1
    · exact ⟨boxes, by rw [merge_overlapping_boxes, if_pos hlen]⟩
    · rcases mergeLoop_pos boxes.length boxes (le_refl _) h with ⟨out, hout, _, _⟩
      exact ⟨out, by rw [merge_overlapping_boxes, if_neg hlen]; exact hout⟩
  · by_cases hlen : boxes.length ≤ 1
    · rw [merge_overlapping_boxes, if_pos hlen]
    · rw [merge_overlapping_boxes, if_neg hlen]
      exact mergeLoop_eq_none hfm

/-- Witness for C9 at a concrete mergeable pair. -/
theorem merge_overlapping_boxes_terminates_witness :
    (∀ b ∈ [Box.mk 0 0 4 4, Box.mk 1 0 5 4], posArea b) ∧
    (∃ out, merge_overlapping_boxes [Box.mk 0 0 4 4, Box.mk 1 0 5 4] (3 / 10) = .ok out) ∧
    (∀ boxes2, findMergeAux (3 / 10) [Box.mk 0 0 4 4, Box.mk 1 0 5 4] = .ok (some boxes2) →
      boxes2.length + 1 = [Box.mk 0 0 4 4, Box.mk 1 0 5 4].length) ∧
    (findMergeAux (3 / 10) [Box.mk 0 0 4 4, Box.mk 1 0 5 4] = .ok none →
      merge_overlapping_boxes [Box.mk 0 0 4 4, Box.mk 1 0 5 4] (3 / 10) =
        .ok [Box.mk 0 0 4 4, Box.mk 1 0 5 4]) :=
  ⟨by decide, merge_overlapping_boxes_terminates _ _ (by decide)⟩

/-- Claim C10: on boxes of positive area every input box of
`merge_overlapping_boxes` is fully contained in some box of the output — each
merge replaces a pair by their union, so no detected region is lost. -/
theorem merge_overlapping_boxes_covers_input (boxes : List Box) (overlap_threshold : ℚ)
    (h : ∀ b ∈ boxes, posArea b) :
    ∃ out, merge_overlapping_boxes boxes overlap_threshold = .ok out ∧
      ∀ b ∈ boxes, ∃ o ∈ out, containsB o b := by
  by_cases hlen : boxes.length ≤ 1
  · exact ⟨boxes, by rw [merge_overlapping_boxes, if_pos hlen],
      fun b hb => ⟨b, hb, containsB_refl _⟩⟩
  · rcases mergeLoop_pos boxes.length boxes (le_refl _) h with ⟨out, hout, hpos, hcov⟩
    exact ⟨out, by rw [merge_overlapping_boxes, if_neg hlen]; exact hout, hcov⟩

/-- Witness for C10 at a concrete mergeable triple. -/
theorem merge_overlapping_boxes_covers_input_witness :
    (∀ b ∈ [Box.mk 0 0 2 2, Box.mk 1 0 3 2, Box.mk 0 10 2 12], posArea b) ∧
    ∃ out, merge_overlapping_boxes [Box.mk 0 0 2 2, Box.mk 1 0 3 2, Box.mk 0 10 2 12]
        (3 / 10) = .ok out ∧
      ∀ b ∈ [Box.mk 0 0 2 2, Box.mk 1 0 3 2, Box.mk 0 10 2 12], ∃ o ∈ out, containsB o b :=
  ⟨by decide, merge_overlapping_boxes_covers_input _ _ (by decide)⟩

/-- Claim C4 (counterexample): on the already `y1`-sorted boxes
`[0,0,10,100]`, `[20,1,30,10]`, `[0,11,10,90]` the clustering of
`xy_cut_sort` starts a new row at the third box although its `y1 = 11` does
not exceed `0.95 ×` the running maximum bottom of the current row
(`0.95 × max(100, 10) = 95`): the boundary is tested against the most
recently appended box's `y2 = 10` only, refuting the running-max rule. -/
theorem row_clustering_not_running_max :
    rowClusters [⟨0, 0, 10, 100⟩, ⟨20, 1, 30, 10⟩, ⟨0, 11, 10, 90⟩] =
      [[⟨0, 0, 10, 100⟩, ⟨20, 1, 30, 10⟩], [⟨0, 11, 10, 90⟩]] ∧
    ¬ ((11 : ℚ) > max 100 10 * (95 / 100)) :=
  ⟨by decide, by decide⟩

/-- Claim C4 (amended): the row clustering starts a new row exactly when the
next box's `y1` exceeds `0.95` times the `y2` of the most recently appended
box of the current row (not the running maximum of the row's bottoms): the
produced clusters partition the input in order, within every cluster each
consecutive pair satisfies the no-break relation, and consecutive clusters
are separated by an actual break. -/
theorem rowClusters_lastBox_rule (l : List Box) :
    (rowClusters l).flatten = l ∧
    (∀ c ∈ rowClusters l, c ≠ [] ∧ List.Chain' sameRowStep c) ∧
    List.Chain' rowBreak (rowClusters l) := by
  refine ⟨rowClusters_flatten l, ?_, ?_⟩
  · cases l with
    | nil => simp [rowClusters]
    | cons b rest =>
      rw [rowClusters]
      exact (rowClustersAux_chain rest [b] (by simp) (List.chain'_singleton _)).1
  · cases l with
    | nil => simp [rowClusters]
    | cons b rest =>
      rw [rowClusters]
      exact (rowClustersAux_chain rest [b] (by simp) (List.chain'_singleton _)).2.1

/-- Claim C7: `xy_cut_sort` returns a permutation of its input for either
direction flag (same multiset of boxes — none dropped, added or altered), and
the indices subsequently assigned by `main` to the ordered boxes are the
contiguous integers `1, 2, …, n`. -/
theorem xy_cut_sort_perm_and_indices (boxes : List Box) (rtl : Bool) :
    (xy_cut_sort boxes rtl).Perm boxes ∧
    (readingOrderIndices (xy_cut_sort boxes rtl)).map Prod.fst =
      List.range' 1 boxes.length := by
  have hperm : (xy_cut_sort boxes rtl).Perm boxes := by
    rw [xy_cut_sort]
    split
    · exact List.Perm.refl _
    · have h1 := flatten_map_perm (rowClusters (sortByY1 boxes)) (sortClusterByX1 rtl)
        (fun c => by rw [sortClusterByX1]; exact List.mergeSort_perm c _)
      rw [rowClusters_flatten] at h1
      have h2 : (sortByY1 boxes).Perm boxes := by
        rw [sortByY1]; exact List.mergeSort_perm boxes _
      exact h1.trans h2
  refine ⟨hperm, ?_⟩
  rw [readingOrderIndices_map_fst, hperm.length_eq]

/-- Claim C2 (counterexample): on a detection result whose associations list
holds the out-of-range pair `(0, 5)` (there is only one content box),
`get_inclusive_panels` does not fail: it returns the unchanged panel, the
very output it produces when the malformed association is absent — the
malformed entry is silently skipped. -/
theorem malformed_assoc_no_failure :
    get_inclusive_panels [⟨0, 0, 10, 10⟩] [⟨100, 100, 110, 110⟩] [(0, 5)] =
      get_inclusive_panels [⟨0, 0, 10, 10⟩] [⟨100, 100, 110, 110⟩] [] ∧
    get_inclusive_panels [⟨0, 0, 10, 10⟩] [⟨100, 100, 110, 110⟩] [(0, 5)] =
      [⟨0, 0, 10, 10⟩] :=
  ⟨by decide, by decide⟩

/-- Claim C2 (amended): associations with an out-of-range panel index or
content index are silently ignored by `get_inclusive_panels` — the output on
any associations list equals the output on that list with all such entries
filtered away; no error of any kind is raised. -/
theorem malformed_assocs_ignored (panels texts : List Box) (assocs : List (ℕ × ℕ)) :
    get_inclusive_panels panels texts assocs =
      get_inclusive_panels panels texts
        (assocs.filter (fun a =>
          decide (a.1 < panels.length) && decide (a.2 < texts.length))) := by
  rw [get_inclusive_panels, get_inclusive_panels]
  exact inclusiveAux_filter_assocs texts assocs panels.length panels 0 (by omega)

/-- Claim C5 (counterexample): with panel `[0,0,10,10]`, content box
`[2,2,11.5,5]` and the association `(0,0)`, the expanded box is
`[0,0,11.5,10]` but the final `int()` casts truncate it to `[0,0,11,10]`,
whose right edge `11` no longer reaches the content box's `x2 = 11.5`:
exact containment fails for non-integer float coordinates. -/
theorem inclusive_panels_truncation :
    get_inclusive_panels [⟨0, 0, 10, 10⟩] [⟨2, 2, 23 / 2, 5⟩] [(0, 0)] =
      [⟨0, 0, 11, 10⟩] ∧ ¬ ((23 / 2 : ℚ) ≤ ((11 : ℤ) : ℚ)) :=
  ⟨by decide, by decide⟩

/-- Claim C5 (amended): for nonnegative coordinates, every content box `c`
associated to panel `i` is contained in the box returned at position `i` up
to the final integer truncation: the left and top edges contain `c` exactly,
and the right and bottom edges fall short of `c` by strictly less than one
pixel (exact containment holds when all coordinates are integers). -/
theorem inclusive_panels_assoc_coverage (panels texts : List Box)
    (assocs : List (ℕ × ℕ)) (i j : ℕ)
    (hp : ∀ b ∈ panels, 0 ≤ b.x1 ∧ 0 ≤ b.y1 ∧ 0 ≤ b.x2 ∧ 0 ≤ b.y2)
    (ht : ∀ b ∈ texts, 0 ≤ b.x1 ∧ 0 ≤ b.y1 ∧ 0 ≤ b.x2 ∧ 0 ≤ b.y2)
    (hmem : (i, j) ∈ assocs) (hi : i < panels.length) (hj : j < texts.length) :
    ∃ out c, (get_inclusive_panels panels texts assocs)[i]? = some out ∧
      texts[j]? = some c ∧
      ((out.x1 : ℤ) : ℚ) ≤ c.x1 ∧ ((out.y1 : ℤ) : ℚ) ≤ c.y1 ∧
      c.x2 < ((out.x2 : ℤ) : ℚ) + 1 ∧ c.y2 < ((out.y2 : ℤ) : ℚ) + 1 := by
  have hAmem : j ∈ (assocs.filter (fun a => a.1 == i)).map (fun a => a.2) :=
    List.mem_map.2 ⟨(i, j), List.mem_filter.2 ⟨hmem, by simp⟩, rfl⟩
  have hget : texts[j]? = some texts[j] := List.getElem?_eq_getElem hj
  have hcov : containsB
      (expandAux ((assocs.filter (fun a => a.1 == i)).map (fun a => a.2))
        panels[i] 0 texts panels[i]) texts[j] := by
    apply expandAux_covers _ panels[i] texts 0 panels[i] j texts[j] hget
    rw [Nat.zero_add]
    exact Or.inl hAmem
  have hpn := hp panels[i] (List.getElem_mem hi)
  have htn : ∀ b ∈ texts, 0 ≤ b.x1 ∧ 0 ≤ b.y1 := fun b hb => ⟨(ht b hb).1, (ht b hb).2.1⟩
  have hnn := expandAux_nonneg ((assocs.filter (fun a => a.1 == i)).map (fun a => a.2))
    panels[i] texts 0 panels[i] hpn.1 hpn.2.1 htn
  have hmono := expandAux_mono ((assocs.filter (fun a => a.1 == i)).map (fun a => a.2))
    panels[i] texts 0 panels[i]
  have hex2 : (0 : ℚ) ≤ (expandAux ((assocs.filter (fun a => a.1 == i)).map (fun a => a.2))
      panels[i] 0 texts panels[i]).x2 := le_trans hpn.2.2.1 hmono.2.2.1
  have hey2 : (0 : ℚ) ≤ (expandAux ((assocs.filter (fun a => a.1 == i)).map (fun a => a.2))
      panels[i] 0 texts panels[i]).y2 := le_trans hpn.2.2.2 hmono.2.2.2
  refine ⟨panelOut texts assocs i panels[i], texts[j], ?_, hget, ?_, ?_, ?_, ?_⟩
  · rw [get_inclusive_panels, inclusiveAux_getElem, List.getElem?_eq_getElem hi]
    simp only [Option.map_some', Nat.zero_add]
  · exact le_trans (pyInt_le hnn.1) hcov.1
  · exact le_trans (pyInt_le hnn.2) hcov.2.1
  · exact lt_of_le_of_lt hcov.2.2.1 (lt_pyInt_add_one hex2)
  · exact lt_of_le_of_lt hcov.2.2.2 (lt_pyInt_add_one hey2)

/-- Witness for C5 at a concrete associated panel and (integer-coordinate)
content box. -/
theorem inclusive_panels_assoc_coverage_witness :
    (∀ b ∈ [Box.mk 0 0 10 10], 0 ≤ b.x1 ∧ 0 ≤ b.y1 ∧ 0 ≤ b.x2 ∧ 0 ≤ b.y2) ∧
    (∀ b ∈ [Box.mk 2 2 8 5], 0 ≤ b.x1 ∧ 0 ≤ b.y1 ∧ 0 ≤ b.x2 ∧ 0 ≤ b.y2) ∧
    ((0, 0) ∈ [((0 : ℕ), (0 : ℕ))]) ∧
    (0 < [Box.mk 0 0 10 10].length) ∧ (0 < [Box.mk 2 2 8 5].length) ∧
    (∃ out c,
      (get_inclusive_panels [Box.mk 0 0 10 10] [Box.mk 2 2 8 5] [(0, 0)])[0]? = some out ∧
      [Box.mk 2 2 8 5][0]? = some c ∧
      ((out.x1 : ℤ) : ℚ) ≤ c.x1 ∧ ((out.y1 : ℤ) : ℚ) ≤ c.y1 ∧
      c.x2 < ((out.x2 : ℤ) : ℚ) + 1 ∧ c.y2 < ((out.y2 : ℤ) : ℚ) + 1) :=
  ⟨by decide, by decide, by decide, by decide, by decide,
    inclusive_panels_assoc_coverage [Box.mk 0 0 10 10] [Box.mk 2 2 8 5] [(0, 0)] 0 0
      (by decide) (by decide) (by decide) (by decide) (by decide)⟩

/-- Claim C8: for a box with natural pixel coordinates satisfying `x1 ≤ x2`
and `y1 ≤ y2`, the shrink-wrap step produces a box contained in (or equal to)
the input box; when the crop holds no pixel of intensity ≤ 245 the box is
returned unchanged, and when it does the output is exactly the ink bounding
rectangle translated by the crop offset: it covers every ink pixel and each
of its four edges is attained by an ink pixel. -/
theorem shrink_wrap_spec (img : ℕ → ℕ → ℕ) (b : NBox)
    (hx : b.x1 ≤ b.x2) (hy : b.y1 ≤ b.y2) :
    (b.x1 ≤ (shrink_wrap img b).x1 ∧ b.y1 ≤ (shrink_wrap img b).y1 ∧
      (shrink_wrap img b).x2 ≤ b.x2 ∧ (shrink_wrap img b).y2 ≤ b.y2) ∧
    ((∀ px py, ¬ inkAt img b px py) → shrink_wrap img b = b) ∧
    (∀ px py, inkAt img b px py →
      (shrink_wrap img b).x1 ≤ px ∧ px < (shrink_wrap img b).x2 ∧
      (shrink_wrap img b).y1 ≤ py ∧ py < (shrink_wrap img b).y2) ∧
    ((∃ px py, inkAt img b px py) →
      (∃ py, inkAt img b (shrink_wrap img b).x1 py) ∧
      (∃ py, inkAt img b ((shrink_wrap img b).x2 - 1) py) ∧
      (∃ px, inkAt img b px (shrink_wrap img b).y1) ∧
      (∃ px, inkAt img b px ((shrink_wrap img b).y2 - 1))) := by
  cases hic : inkCoords img b with
  | nil =>
    rw [shrink_wrap_of_nil hic]
    refine ⟨⟨le_refl _, le_refl _, le_refl _, le_refl _⟩, fun _ => rfl, ?_, ?_⟩
    · intro px py hink
      rcases inkAt_iff_mem.1 hink with ⟨ix, iy, hmem, _, _⟩
      rw [hic] at hmem
      exact absurd hmem (List.not_mem_nil _)
    · rintro ⟨px, py, hink⟩
      rcases inkAt_iff_mem.1 hink with ⟨ix, iy, hmem, _, _⟩
      rw [hic] at hmem
      exact absurd hmem (List.not_mem_nil _)
  | cons p ps =>
    have hmemco : ∀ q ∈ p :: ps, q ∈ inkCoords img b := by
      intro q hq
      rw [hic]
      exact hq
    have hbounds : ∀ q ∈ p :: ps, q.1 < b.x2 - b.x1 ∧ q.2 < b.y2 - b.y1 := by
      intro q hq
      rcases q with ⟨ix, iy⟩
      rcases mem_inkCoords.1 (hmemco _ hq) with ⟨h1, h2, _⟩
      exact ⟨h1, h2⟩
    rw [shrink_wrap_of_cons hic]
    dsimp only
    refine ⟨?_, ?_, ?_, ?_⟩
    · refine ⟨Nat.le_add_right _ _, Nat.le_add_right _ _, ?_, ?_⟩
      · rcases exists_attains_fst_max p ps with ⟨q, hq, hq1⟩
        have hb := (hbounds q hq).1
        rw [← hq1]
        omega
      · rcases exists_attains_snd_max p ps with ⟨q, hq, hq1⟩
        have hb := (hbounds q hq).2
        rw [← hq1]
        omega
    · intro habs
      exact absurd (inkAt_of_mem (hmemco p (List.mem_cons_self _ _))) (habs _ _)
    · intro px py hink
      rcases inkAt_iff_mem.1 hink with ⟨ix, iy, hmem, hpx, hpy⟩
      rw [hic] at hmem
      subst hpx
      subst hpy
      have hminx : listMin p.1 (ps.map Prod.fst) ≤ ix := by
        rcases List.mem_cons.1 hmem with h | h
        · subst h
          exact (listMin_le _ _).1
        · exact (listMin_le _ _).2 ix (List.mem_map.2 ⟨(ix, iy), h, rfl⟩)
      have hmaxx : ix ≤ listMax p.1 (ps.map Prod.fst) := by
        rcases List.mem_cons.1 hmem with h | h
        · subst h
          exact (le_listMax _ _).1
        · exact (le_listMax _ _).2 ix (List.mem_map.2 ⟨(ix, iy), h, rfl⟩)
      have hminy : listMin p.2 (ps.map Prod.snd) ≤ iy := by
        rcases List.mem_cons.1 hmem with h | h
        · subst h
          exact (listMin_le _ _).1
        · exact (listMin_le _ _).2 iy (List.mem_map.2 ⟨(ix, iy), h, rfl⟩)
      have hmaxy : iy ≤ listMax p.2 (ps.map Prod.snd) := by
        rcases List.mem_cons.1 hmem with h | h
        · subst h
          exact (le_listMax _ _).1
        · exact (le_listMax _ _).2 iy (List.mem_map.2 ⟨(ix, iy), h, rfl⟩)
      exact ⟨by omega, by omega, by omega, by omega⟩
    · intro _
      refine ⟨?_, ?_, ?_, ?_⟩
      · rcases exists_attains_fst_min p ps with ⟨q, hq, hq1⟩
        exact ⟨b.y1 + q.2, by rw [← hq1]; exact inkAt_of_mem (hmemco q hq)⟩
      · rcases exists_attains_fst_max p ps with ⟨q, hq, hq1⟩
        have he : b.x1 + listMax p.1 (ps.map Prod.fst) + 1 - 1 =
            b.x1 + listMax p.1 (ps.map Prod.fst) := by omega
        rw [he, ← hq1]
        exact ⟨b.y1 + q.2, inkAt_of_mem (hmemco q hq)⟩
      · rcases exists_attains_snd_min p ps with ⟨q, hq, hq1⟩
        exact ⟨b.x1 + q.1, by rw [← hq1]; exact inkAt_of_mem (hmemco q hq)⟩
      · rcases exists_attains_snd_max p ps with ⟨q, hq, hq1⟩
        have he : b.y1 + listMax p.2 (ps.map Prod.snd) + 1 - 1 =
            b.y1 + listMax p.2 (ps.map Prod.snd) := by omega
        rw [he, ← hq1]
        exact ⟨b.x1 + q.1, inkAt_of_mem (hmemco q hq)⟩

/-- Witness for C8: a 5×5 crop whose only dark pixel sits at `(px, py) =
(2, 3)`; the hypotheses `x1 ≤ x2` and `y1 ≤ y2` are discharged at the box
`[0, 0, 5, 5]`. -/
theorem shrink_wrap_spec_witness :
    ((0 : ℕ) ≤ 5 ∧ (0 : ℕ) ≤ 5) ∧
    (((NBox.mk 0 0 5 5).x1 ≤
        (shrink_wrap (fun py px => if px = 2 ∧ py = 3 then 0 else 255)
          (NBox.mk 0 0 5 5)).x1 ∧
      (NBox.mk 0 0 5 5).y1 ≤
        (shrink_wrap (fun py px => if px = 2 ∧ py = 3 then 0 else 255)
          (NBox.mk 0 0 5 5)).y1 ∧
      (shrink_wrap (fun py px => if px = 2 ∧ py = 3 then 0 else 255)
          (NBox.mk 0 0 5 5)).x2 ≤ (NBox.mk 0 0 5 5).x2 ∧
      (shrink_wrap (fun py px => if px = 2 ∧ py = 3 then 0 else 255)
          (NBox.mk 0 0 5 5)).y2 ≤ (NBox.mk 0 0 5 5).y2) ∧
    ((∀ px py, ¬ inkAt (fun py px => if px = 2 ∧ py = 3 then 0 else 255)
        (NBox.mk 0 0 5 5) px py) →
      shrink_wrap (fun py px => if px = 2 ∧ py = 3 then 0 else 255) (NBox.mk 0 0 5 5) =
        NBox.mk 0 0 5 5) ∧
    (∀ px py, inkAt (fun py px => if px = 2 ∧ py = 3 then 0 else 255)
        (NBox.mk 0 0 5 5) px py →
      (shrink_wrap (fun py px => if px = 2 ∧ py = 3 then 0 else 255)
          (NBox.mk 0 0 5 5)).x1 ≤ px ∧
      px < (shrink_wrap (fun py px => if px = 2 ∧ py = 3 then 0 else 255)
          (NBox.mk 0 0 5 5)).x2 ∧
      (shrink_wrap (fun py px => if px = 2 ∧ py = 3 then 0 else 255)
          (NBox.mk 0 0 5 5)).y1 ≤ py ∧
      py < (shrink_wrap (fun py px => if px = 2 ∧ py = 3 then 0 else 255)
          (NBox.mk 0 0 5 5)).y2) ∧
    ((∃ px py, inkAt (fun py px => if px = 2 ∧ py = 3 then 0 else 255)
        (NBox.mk 0 0 5 5) px py) →
      (∃ py, inkAt (fun py px => if px = 2 ∧ py = 3 then 0 else 255) (NBox.mk 0 0 5 5)
        (shrink_wrap (fun py px => if px = 2 ∧ py = 3 then 0 else 255)
          (NBox.mk 0 0 5 5)).x1 py) ∧
      (∃ py, inkAt (fun py px => if px = 2 ∧ py = 3 then 0 else 255) (NBox.mk 0 0 5 5)
        ((shrink_wrap (fun py px => if px = 2 ∧ py = 3 then 0 else 255)
          (NBox.mk 0 0 5 5)).x2 - 1) py) ∧
      (∃ px, inkAt (fun py px => if px = 2 ∧ py = 3 then 0 else 255) (NBox.mk 0 0 5 5) px
        (shrink_wrap (fun py px => if px = 2 ∧ py = 3 then 0 else 255)
          (NBox.mk 0 0 5 5)).y1) ∧
      (∃ px, inkAt (fun py px => if px = 2 ∧ py = 3 then 0 else 255) (NBox.mk 0 0 5 5) px
        ((shrink_wrap (fun py px => if px = 2 ∧ py = 3 then 0 else 255)
          (NBox.mk 0 0 5 5)).y2 - 1)))) :=
  ⟨⟨by decide, by decide⟩,
    shrink_wrap_spec (fun py px => if px = 2 ∧ py = 3 then 0 else 255)
      (NBox.mk 0 0 5 5) (by decide) (by decide)⟩

end Claims




end PanelReader
